import Mathlib

/-!
Shallow embedding of the SJCast repository: `monitor.py` (discovery stage) and
`process_videos.py` (processing stage).  External effects (the YouTube fetch,
yt-dlp, the B2 upload, the clock, the local audio directory) are passed in
explicitly; machine state that the scripts persist (the monitor state file and
the episode catalog) is threaded as values.
-/

set_option autoImplicit false

/-- One discovered upload, as built by `fetch_recent_uploads` in monitor.py and
consumed by process_videos.py. -/
structure VideoInfo where
  id : String
  title : String
  published_at : String
  description : String
  deriving DecidableEq, Repr

/-- The persisted monitor state file (`state.json`): seen ids and last check time. -/
structure MonitorState where
  seen_ids : List String
  last_check : Option String
  deriving DecidableEq, Repr

/-- One entry of the persisted episode catalog (`episodes.json`). -/
structure Episode where
  video_id : String
  title : String
  description : String
  published_at : String
  audio_url : Option String
  file_size : Nat
  processed_at : String
  deriving DecidableEq, Repr

/-- One entry of the generated RSS feed, keeping the fields `generate_feed` sets
per episode: id, title, description, publication date, the enclosure (present
iff `audio_url` is), and the itunes subtitle (present iff the title carries a
docket). -/
structure FeedEntry where
  entry_id : String
  title : String
  descr : String
  published : String
  enclosure : Option (String × Nat)
  subtitle : Option String
  deriving DecidableEq, Repr

/-- ASCII fragment of Python's whitespace class: the characters matched by the
regex class \s and stripped by str.strip (the model's alphabet is restricted to
ASCII, so the further Unicode whitespace code points are out of scope). -/
def isPySpace (c : Char) : Bool :=
  c = ' ' || c = '\t' || c = '\n' || c = '\r' || c = '\x0b' || c = '\x0c'

/-- Python str.strip on the ASCII fragment: drop leading and trailing whitespace. -/
def pyStrip (s : String) : String :=
  String.mk (((s.data.dropWhile isPySpace).reverse.dropWhile isPySpace).reverse)

/-- Code-point lexicographic strict comparison on character lists: the order
Python uses when the sort key compares the published_at strings.  Bool-valued
so that concrete runs of the sort evaluate by kernel reduction. -/
def strLt : List Char → List Char → Bool
  | [], [] => false
  | [], _ :: _ => true
  | _ :: _, [] => false
  | c :: cs, d :: ds => if c < d then true else if d < c then false else strLt cs ds

namespace Monitor

/-- The part of the regex r'^(.+),\s*(SJC-\d+)$' after the captured comma:
\s*, then the literal "SJC-", then \d+ (greedy), then $.  Python's $ matches at
the end of the string or just before one final newline.  \s* and \d+ need no
backtracking here: a shorter whitespace run would leave a whitespace character
where the literal expects 'S', and a shorter digit run would leave a digit
where $ must match.  Returns the text of capture group 2. -/
def sjcTail (cs : List Char) : Option (List Char) :=
  match cs.dropWhile isPySpace with
  | 'S' :: 'J' :: 'C' :: '-' :: rest =>
    if rest.takeWhile Char.isDigit ≠ [] ∧
        (rest.dropWhile Char.isDigit = [] ∨ rest.dropWhile Char.isDigit = ['\n']) then
      some ('S' :: 'J' :: 'C' :: '-' :: rest.takeWhile Char.isDigit)
    else none
  | _ => none

/-- Attempt the match with capture group 1 ending just before position i: the
character at i must be the literal comma, and the rest of the pattern must
consume the remaining input. -/
def tryComma (title : List Char) (i : Nat) : Option (List Char × List Char) :=
  if title.get? i = some ',' then
    match sjcTail (title.drop (i + 1)) with
    | some d => some (title.take i, d)
    | none => none
  else none

/-- Backtracking of the greedy (.+): try the comma positions from the right,
down to position 1 (group 1 must be nonempty). -/
def scanCommas (title : List Char) : Nat → Option (List Char × List Char)
  | 0 => none
  | i + 1 =>
    match tryComma title (i + 1) with
    | some r => some r
    | none => scanCommas title i

/-- re.search of r'^(.+),\s*(SJC-\d+)$': anchored at position 0; (.+) is greedy
and cannot cross a newline, so candidate comma positions lie inside the maximal
newline-free prefix and are tried right to left. -/
def reMatch (title : List Char) : Option (List Char × List Char) :=
  scanCommas title ((title.takeWhile (fun c => c ≠ '\n')).length - 1)

/-- Embedding of monitor.py parse_case_info: on a regex match, case_name is
group(1).strip() and docket is group(2); otherwise the whole title and None. -/
def parse_case_info (title : String) : String × Option String :=
  match reMatch title.data with
  | some (g1, d) => (pyStrip (String.mk g1), some (String.mk d))
  | none => (title, none)

/-- Embedding of monitor.py check_for_new_videos, parametrised by the fetched
upload-source response: keep the response items whose id is not in the seen set,
in response order. -/
def check_for_new_videos (state : MonitorState) (recent : List VideoInfo) : List VideoInfo :=
  recent.filter (fun v => !(state.seen_ids.contains v.id))

/-- The argparse surface of monitor.py. -/
structure Args where
  init : Bool
  list : Option Nat
  json : Bool
  all : Bool
  deriving DecidableEq, Repr

/-- Python truthiness of args.list: an int was supplied and it is nonzero. -/
def listSelected (a : Args) : Bool :=
  match a.list with
  | some n => n != 0
  | none => false

/-- The --init branch of main: replace seen_ids with the ids of the current
response and stamp last_check. -/
def initRun (state : MonitorState) (videos : List VideoInfo) (now : String) : MonitorState :=
  { state with seen_ids := videos.map (·.id), last_check := some now }

/-- Embedding of monitor.py main, parametrised by the parsed flags, the loaded
state, the upload-source response and the clock.  Returns the state written to
the state file (none when save_state is never called) and the process exit
status.  Branch order follows the source: --list first, then --init, then the
check/backfill path, where --json prints and exits without saving and the
interactive path extends seen_ids (only when there are new videos), stamps
last_check and saves. -/
def monitorMain (a : Args) (state : MonitorState) (response : List VideoInfo)
    (now : String) : Option MonitorState × Nat :=
  if listSelected a then (none, 0)
  else if a.init then (some (initRun state response now), 0)
  else
    let new_videos := if a.all then response else check_for_new_videos state response
    if a.json then (none, if new_videos.isEmpty then 1 else 0)
    else
      let seen' := if new_videos.isEmpty then state.seen_ids
                   else state.seen_ids ++ new_videos.map (·.id)
      (some { state with seen_ids := seen', last_check := some now },
       if new_videos.isEmpty then 1 else 0)

end Monitor

namespace PV

/-- Embedding of process_videos.py parse_case_info.  The source duplicates the
monitor's function verbatim (same regex, same strip), so the embedding repeats
the same construction inside this namespace. -/
def sjcTail (cs : List Char) : Option (List Char) :=
  match cs.dropWhile isPySpace with
  | 'S' :: 'J' :: 'C' :: '-' :: rest =>
    if rest.takeWhile Char.isDigit ≠ [] ∧
        (rest.dropWhile Char.isDigit = [] ∨ rest.dropWhile Char.isDigit = ['\n']) then
      some ('S' :: 'J' :: 'C' :: '-' :: rest.takeWhile Char.isDigit)
    else none
  | _ => none

/-- Capture group 1 ends just before position i; see Monitor.tryComma. -/
def tryComma (title : List Char) (i : Nat) : Option (List Char × List Char) :=
  if title.get? i = some ',' then
    match sjcTail (title.drop (i + 1)) with
    | some d => some (title.take i, d)
    | none => none
  else none

/-- Greedy backtracking over comma positions; see Monitor.scanCommas. -/
def scanCommas (title : List Char) : Nat → Option (List Char × List Char)
  | 0 => none
  | i + 1 =>
    match tryComma title (i + 1) with
    | some r => some r
    | none => scanCommas title i

/-- re.search of r'^(.+),\s*(SJC-\d+)$'; see Monitor.reMatch. -/
def reMatch (title : List Char) : Option (List Char × List Char) :=
  scanCommas title ((title.takeWhile (fun c => c ≠ '\n')).length - 1)

/-- Embedding of process_videos.py parse_case_info. -/
def parse_case_info (title : String) : String × Option String :=
  match reMatch title.data with
  | some (g1, d) => (pyStrip (String.mk g1), some (String.mk d))
  | none => (title, none)

/-- The external behaviour a processing run observes: whether yt-dlp succeeds
for an id, what URL the B2 upload returns for an id (none when b2sdk or the
credentials are missing, matching upload_to_b2 returning None), the stat size
of the artifact for an id, and the clock. -/
structure Env where
  fetchOk : String → Bool
  uploadUrl : String → Option String
  fileSize : String → Nat
  now : String

/-- Embedding of download_audio.  The audio directory is the list of ids whose
mp3 artifact exists.  An existing artifact is reused without re-fetching;
otherwise yt-dlp is invoked and the artifact appears iff the fetch succeeds.
Returns the artifact (by its id) and the updated directory. -/
def download_audio (env : Env) (fs : List String) (video_id : String) :
    Option String × List String :=
  if fs.contains video_id then (some video_id, fs)
  else if env.fetchOk video_id then (some video_id, video_id :: fs)
  else (none, fs)

/-- Embedding of process_video: download (abort the record on failure), tag
(best-effort, no catalog effect), stat the file size, upload, build the episode
record, and unlink the local artifact iff the upload returned a URL. -/
def process_video (env : Env) (fs : List String) (v : VideoInfo) :
    Option Episode × List String :=
  match download_audio env fs v.id with
  | (none, fs') => (none, fs')
  | (some _, fs') =>
    let file_size := env.fileSize v.id
    let audio_url := env.uploadUrl v.id
    let ep : Episode := {
      video_id := v.id, title := v.title, description := v.description,
      published_at := v.published_at, audio_url := audio_url,
      file_size := file_size, processed_at := env.now }
    (some ep, if audio_url.isSome then fs'.erase v.id else fs')

/-- The per-video loop of main in process_videos.py: skip ids already in the
snapshot of existing ids, otherwise process the video and append the episode on
success.  The snapshot is not updated inside the loop. -/
def runVideos (env : Env) (existing : List String) :
    List VideoInfo → List Episode → List String → List Episode × List String
  | [], episodes, fs => (episodes, fs)
  | v :: vs, episodes, fs =>
    if existing.contains v.id then runVideos env existing vs episodes fs
    else
      match process_video env fs v with
      | (some ep, fs') => runVideos env existing vs (episodes ++ [ep]) fs'
      | (none, fs') => runVideos env existing vs episodes fs'

/-- The catalog update of main in process_videos.py: the snapshot of existing
ids is taken once, from the loaded catalog, before the loop runs. -/
def processMain (env : Env) (episodes : List Episode) (fs : List String)
    (new_videos : List VideoInfo) : List Episode × List String :=
  runVideos env (episodes.map (·.video_id)) new_videos episodes fs

/-- One insertion step of the stable descending sort on published_at: the new
element passes the strictly later entries and stops in front of the first entry
not strictly later, hence in front of entries with an equal key, which it
preceded in the catalog. -/
def insertByDateDesc (x : Episode) : List Episode → List Episode
  | [] => [x]
  | y :: ys =>
    if strLt x.published_at.data y.published_at.data then y :: insertByDateDesc x ys
    else x :: y :: ys

/-- Embedding of sorted(episodes, key=lambda x: x.get("published_at", ""),
reverse=True): Python's sort is stable, and a stable sort by a total preorder
is unique, so the insertion sort below computes it. -/
def sortByDateDesc : List Episode → List Episode
  | [] => []
  | x :: xs => insertByDateDesc x (sortByDateDesc xs)

/-- The feed entry generate_feed emits for one episode: enclosure iff audio_url
is set, itunes subtitle iff the title parses to a docket. -/
def feedEntryOf (ep : Episode) : FeedEntry :=
  { entry_id := ep.video_id, title := ep.title, descr := ep.description,
    published := ep.published_at,
    enclosure := ep.audio_url.map (fun u => (u, ep.file_size)),
    subtitle := (parse_case_info ep.title).2.map (fun d => "Docket: " ++ d) }

/-- Embedding of generate_feed: the full catalog, sorted by published_at
descending (stable), mapped to feed entries. -/
def generate_feed (episodes : List Episode) : List FeedEntry :=
  (sortByDateDesc episodes).map feedEntryOf

end PV

/-- The decompositions of a title accepted by the regex r'^(.+),\s*(SJC-\d+)$'
under Python semantics: a nonempty newline-free group 1, the comma, a
whitespace run, the literal "SJC-", a nonempty digit run, and then the end of
the string or one final newline (Python's $). -/
def MatchSplit (title g1 d : List Char) : Prop :=
  ∃ w ds t, title = g1 ++ [','] ++ w ++ ('S' :: 'J' :: 'C' :: '-' :: ds) ++ t ∧
    g1 ≠ [] ∧ (∀ c ∈ g1, c ≠ '\n') ∧ (∀ c ∈ w, isPySpace c) ∧
    ds ≠ [] ∧ (∀ c ∈ ds, c.isDigit) ∧ (t = [] ∨ t = ['\n']) ∧
    d = 'S' :: 'J' :: 'C' :: '-' :: ds

/-- A video used by concrete witnesses and counterexamples. -/
def vidA : VideoInfo :=
  { id := "a", title := "A v. B, SJC-1", published_at := "2024-01-01", description := "" }

/-- An environment where every fetch succeeds and every upload is skipped. -/
def envFetchOnly : PV.Env :=
  { fetchOk := fun _ => true, uploadUrl := fun _ => none,
    fileSize := fun _ => 0, now := "t" }

/-- An environment where every fetch fails. -/
def envFetchFail : PV.Env :=
  { fetchOk := fun _ => false, uploadUrl := fun _ => none,
    fileSize := fun _ => 0, now := "t" }

/-- An environment where every fetch succeeds and every upload returns a URL. -/
def envUpload : PV.Env :=
  { fetchOk := fun _ => true, uploadUrl := fun _ => some "u",
    fileSize := fun _ => 0, now := "t" }

/-- An episode with video_id "a", matching vidA, for concrete witnesses. -/
def epA : Episode :=
  { video_id := "a", title := "A v. B, SJC-1", description := "",
    published_at := "2024-01-01", audio_url := none, file_size := 0,
    processed_at := "p" }

/-- Episode dated 2024-01-01, for the feed ordering example. -/
def epJan : Episode :=
  { video_id := "v1", title := "T1", description := "", published_at := "2024-01-01",
    audio_url := none, file_size := 0, processed_at := "p" }

/-- Episode dated 2024-03-01, for the feed ordering example. -/
def epMar : Episode :=
  { video_id := "v2", title := "T2", description := "", published_at := "2024-03-01",
    audio_url := none, file_size := 0, processed_at := "p" }

/-- Episode dated 2024-02-01, for the feed ordering example. -/
def epFeb : Episode :=
  { video_id := "v3", title := "T3", description := "", published_at := "2024-02-01",
    audio_url := none, file_size := 0, processed_at := "p" }

/-! Basic bridging lemmas. -/

theorem contains_iff_mem {l : List String} {a : String} : l.contains a = true ↔ a ∈ l :=
  List.elem_iff

theorem contains_false_iff {l : List String} {a : String} :
    l.contains a = false ↔ a ∉ l := by
  rw [← Bool.not_eq_true, not_iff_not]
  exact contains_iff_mem

theorem strLt_iff_lt : ∀ a b : List Char, strLt a b = true ↔ a < b := by
  intro a
  induction a with
  | nil =>
    intro b
    cases b with
    | nil => exact iff_of_false (by decide) (lt_irrefl _)
    | cons d ds => exact iff_of_true rfl List.Lex.nil
  | cons c cs ih =>
    intro b
    cases b with
    | nil =>
      have hf : strLt (c :: cs) [] = false := rfl
      exact iff_of_false (by simp [hf]) (List.Lex.not_nil_right _ _)
    | cons d ds =>
      have hunfold : strLt (c :: cs) (d :: ds)
          = if c < d then true else if d < c then false else strLt cs ds := rfl
      by_cases h1 : c < d
      · rw [hunfold, if_pos h1]
        exact iff_of_true rfl (List.Lex.rel h1)
      · by_cases h2 : d < c
        · rw [hunfold, if_neg h1, if_pos h2]
          apply iff_of_false (by simp)
          intro hlex
          cases hlex with
          | cons h => exact absurd h2 (lt_irrefl _)
          | rel h => exact absurd h h1
        · have hcd : c = d := le_antisymm (not_lt.mp h2) (not_lt.mp h1)
          subst hcd
          rw [hunfold, if_neg h1, if_neg h2]
          exact (ih ds).trans List.Lex.cons_iff.symm

theorem strLt_string_iff (s t : String) : strLt s.data t.data = true ↔ s < t :=
  (strLt_iff_lt _ _).trans String.lt_iff_toList_lt.symm

theorem strLt_string_false_iff (s t : String) : strLt s.data t.data = false ↔ t ≤ s := by
  rw [← Bool.not_eq_true, strLt_string_iff]
  exact not_lt

/-! Claim C1: the check operation returns exactly the unseen items, in order. -/

/-- C1: for every monitor state S and upload-source response R, the check
operation returns a subsequence of R (same relative order) whose multiset of
items is exactly the items of R whose id is not in S.seen_ids: an item whose id
was seen occurs zero times, any other item exactly as often as in R. -/
theorem check_returns_exactly_unseen (S : MonitorState) (R : List VideoInfo) :
    (Monitor.check_for_new_videos S R).Sublist R ∧
    ∀ v : VideoInfo, (Monitor.check_for_new_videos S R).count v
      = if v.id ∈ S.seen_ids then 0 else R.count v := by
  refine ⟨List.filter_sublist R, fun v => ?_⟩
  by_cases h : v.id ∈ S.seen_ids
  · rw [if_pos h, List.count_eq_zero]
    intro hm
    have hb := (List.mem_filter.mp hm).2
    rw [Bool.not_eq_true'] at hb
    exact absurd h (contains_false_iff.mp hb)
  · rw [if_neg h]
    apply List.count_filter
    simp only [Bool.not_eq_true']
    exact contains_false_iff.mpr h

/-! Claim C9: init followed by an unchanged check yields zero new items. -/

/-- C9: an init run marks every currently-visible id as seen, so a check of the
same response right after finds nothing: the new-item delta is empty, an init
run through main persists exactly the initRun state, and the subsequent
interactive check run exits with status 1 (none found). -/
theorem init_then_check_finds_nothing (s : MonitorState) (R : List VideoInfo)
    (now now' : String) :
    Monitor.check_for_new_videos (Monitor.initRun s R now) R = [] ∧
    (Monitor.monitorMain { init := true, list := none, json := false, all := false }
        s R now).1 = some (Monitor.initRun s R now) ∧
    (Monitor.monitorMain { init := false, list := none, json := false, all := false }
        (Monitor.initRun s R now) R now').2 = 1 := by
  have h1 : Monitor.check_for_new_videos (Monitor.initRun s R now) R = [] := by
    apply List.filter_eq_nil_iff.mpr
    intro v hv
    simp only [Bool.not_eq_true', Bool.not_eq_false]
    exact contains_iff_mem.mpr (List.mem_map.mpr ⟨v, hv, rfl⟩)
  refine ⟨h1, rfl, ?_⟩
  simp [Monitor.monitorMain, Monitor.listSelected, h1]

/-! Claim C10: the two title parsers compute the same function. -/

theorem tryComma_agree (title : List Char) (i : Nat) :
    Monitor.tryComma title i = PV.tryComma title i := rfl

theorem scanCommas_agree (title : List Char) : ∀ n : Nat,
    Monitor.scanCommas title n = PV.scanCommas title n
  | 0 => rfl
  | n + 1 => by
    simp only [Monitor.scanCommas, PV.scanCommas, tryComma_agree]
    cases PV.tryComma title (n + 1) with
    | some r => rfl
    | none => exact scanCommas_agree title n

/-- C10: the title parser of the discovery stage and the title parser of the
processing stage agree on every title. -/
theorem parsers_agree (t : String) : Monitor.parse_case_info t = PV.parse_case_info t := by
  unfold Monitor.parse_case_info PV.parse_case_info Monitor.reMatch PV.reMatch
  rw [scanCommas_agree]

/-! Claim C5: feed generation is a stable descending sort by published_at. -/

theorem mem_insertByDateDesc {x y : Episode} :
    ∀ {l : List Episode}, y ∈ PV.insertByDateDesc x l → y = x ∨ y ∈ l := by
  intro l
  induction l with
  | nil =>
    intro h
    simp [PV.insertByDateDesc] at h
    exact Or.inl h
  | cons z zs ih =>
    intro h
    cases hc : strLt x.published_at.data z.published_at.data with
    | true =>
      rw [PV.insertByDateDesc, if_pos hc] at h
      rcases List.mem_cons.mp h with rfl | h'
      · exact Or.inr (List.mem_cons_self _ _)
      · rcases ih h' with rfl | h''
        · exact Or.inl rfl
        · exact Or.inr (List.mem_cons_of_mem _ h'')
    | false =>
      rw [PV.insertByDateDesc, if_neg (by simp [hc])] at h
      rcases List.mem_cons.mp h with rfl | h'
      · exact Or.inl rfl
      · exact Or.inr h'

theorem pairwise_insertByDateDesc (x : Episode) (l : List Episode)
    (h : l.Pairwise (fun a b => b.published_at ≤ a.published_at)) :
    (PV.insertByDateDesc x l).Pairwise (fun a b => b.published_at ≤ a.published_at) := by
  induction l with
  | nil => simp [PV.insertByDateDesc]
  | cons y ys ih =>
    rcases List.pairwise_cons.mp h with ⟨hy, hys⟩
    cases hc : strLt x.published_at.data y.published_at.data with
    | true =>
      have hxy : x.published_at < y.published_at := (strLt_string_iff _ _).mp hc
      rw [PV.insertByDateDesc, if_pos hc]
      refine List.pairwise_cons.mpr ⟨?_, ih hys⟩
      intro z hz
      rcases mem_insertByDateDesc hz with rfl | hz'
      · exact le_of_lt hxy
      · exact hy z hz'
    | false =>
      have hyx : y.published_at ≤ x.published_at := (strLt_string_false_iff _ _).mp hc
      rw [PV.insertByDateDesc, if_neg (by simp [hc])]
      refine List.pairwise_cons.mpr ⟨?_, h⟩
      intro z hz
      rcases List.mem_cons.mp hz with rfl | hz'
      · exact hyx
      · exact le_trans (hy z hz') hyx

theorem pairwise_sortByDateDesc : ∀ l : List Episode,
    (PV.sortByDateDesc l).Pairwise (fun a b => b.published_at ≤ a.published_at)
  | [] => List.Pairwise.nil
  | x :: xs => pairwise_insertByDateDesc x _ (pairwise_sortByDateDesc xs)

theorem filter_insertByDateDesc (x : Episode) (k : String) :
    ∀ l : List Episode,
      (PV.insertByDateDesc x l).filter (fun e => e.published_at == k)
        = (x :: l).filter (fun e => e.published_at == k) := by
  intro l
  induction l with
  | nil => rfl
  | cons y ys ih =>
    cases hc : strLt x.published_at.data y.published_at.data with
    | false => rw [PV.insertByDateDesc, if_neg (by simp [hc])]
    | true =>
      have hxy : x.published_at < y.published_at := (strLt_string_iff _ _).mp hc
      rw [PV.insertByDateDesc, if_pos hc]
      cases hx : (x.published_at == k) with
      | false => simp [List.filter_cons, ih, hx]
      | true =>
        have hk : x.published_at = k := eq_of_beq hx
        have hyk : (y.published_at == k) = false := by
          apply beq_eq_false_iff_ne.mpr
          intro hyk
          rw [hyk, ← hk] at hxy
          exact lt_irrefl _ hxy
        simp [List.filter_cons, ih, hx, hyk]

theorem filter_sortByDateDesc (k : String) : ∀ l : List Episode,
    (PV.sortByDateDesc l).filter (fun e => e.published_at == k)
      = l.filter (fun e => e.published_at == k)
  | [] => rfl
  | x :: xs => by
    rw [PV.sortByDateDesc, filter_insertByDateDesc, List.filter_cons, List.filter_cons,
      filter_sortByDateDesc k xs]

/-- C5: feed generation is a pure function of the catalog whose entries appear
sorted by published_at descending; the sort is stable, so entries with equal
dates keep their catalog (insertion) order, which the filter identity
expresses: for every date the subsequence of episodes carrying it is
unchanged.  On the three episodes dated 2024-01-01, 2024-03-01 and 2024-02-01
the feed lists them as 03-01, 02-01, 01-01. -/
theorem feed_is_stable_descending_sort :
    (∀ eps : List Episode, (PV.generate_feed eps).Pairwise
        (fun a b => b.published ≤ a.published)) ∧
    (∀ (eps : List Episode) (k : String),
        (PV.sortByDateDesc eps).filter (fun e => e.published_at == k)
          = eps.filter (fun e => e.published_at == k)) ∧
    PV.generate_feed [epJan, epMar, epFeb]
      = [PV.feedEntryOf epMar, PV.feedEntryOf epFeb, PV.feedEntryOf epJan] := by
  refine ⟨?_, fun eps k => filter_sortByDateDesc k eps, ?_⟩
  · intro eps
    rw [PV.generate_feed, List.pairwise_map]
    exact pairwise_sortByDateDesc eps
  · have hs : PV.sortByDateDesc [epJan, epMar, epFeb] = [epMar, epFeb, epJan] := by decide
    rw [PV.generate_feed, hs]
    rfl

/-! Claim C6: characterisation of the title parser. -/

theorem takeWhile_nil_split {p : Char → Bool} {a b : List Char}
    (ha : ∀ c ∈ a, p c = true) (hb : b.takeWhile p = []) :
    (a ++ b).takeWhile p = a ∧ (a ++ b).dropWhile p = b := by
  induction a with
  | nil =>
    refine ⟨hb, ?_⟩
    have hsplit := List.takeWhile_append_dropWhile p b
    rw [hb] at hsplit
    simpa using hsplit
  | cons x a' ih =>
    have hx : p x = true := ha x (List.mem_cons_self _ _)
    have ih' := ih (fun c hc => ha c (List.mem_cons_of_mem _ hc))
    constructor
    · rw [List.cons_append, List.takeWhile_cons, hx]
      simp [ih'.1]
    · rw [List.cons_append, List.dropWhile_cons, hx]
      simp [ih'.2]

theorem takeWhile_append_all {p : Char → Bool} {a b : List Char}
    (ha : ∀ c ∈ a, p c = true) : (a ++ b).takeWhile p = a ++ b.takeWhile p := by
  induction a with
  | nil => rfl
  | cons x a' ih =>
    have hx : p x = true := ha x (List.mem_cons_self _ _)
    rw [List.cons_append, List.takeWhile_cons, hx]
    simp [ih (fun c hc => ha c (List.mem_cons_of_mem _ hc))]

theorem sjcTail_sound {cs d : List Char} (h : Monitor.sjcTail cs = some d) :
    ∃ w ds t, cs = w ++ ('S' :: 'J' :: 'C' :: '-' :: ds) ++ t ∧
      (∀ c ∈ w, isPySpace c = true) ∧ ds ≠ [] ∧ (∀ c ∈ ds, c.isDigit = true) ∧
      (t = [] ∨ t = ['\n']) ∧ d = 'S' :: 'J' :: 'C' :: '-' :: ds := by
  unfold Monitor.sjcTail at h
  split at h
  next rest heq =>
    split at h
    next hcond =>
      rcases hcond with ⟨hne, ht⟩
      injection h with hd
      refine ⟨cs.takeWhile isPySpace, rest.takeWhile Char.isDigit,
        rest.dropWhile Char.isDigit, ?_, ?_, hne, ?_, ht, hd.symm⟩
      · calc cs = cs.takeWhile isPySpace ++ cs.dropWhile isPySpace :=
              (List.takeWhile_append_dropWhile _ _).symm
          _ = cs.takeWhile isPySpace ++ ('S' :: 'J' :: 'C' :: '-' :: rest) := by rw [heq]
          _ = cs.takeWhile isPySpace ++ ('S' :: 'J' :: 'C' :: '-' ::
                (rest.takeWhile Char.isDigit ++ rest.dropWhile Char.isDigit)) := by
              rw [List.takeWhile_append_dropWhile]
          _ = cs.takeWhile isPySpace ++ ('S' :: 'J' :: 'C' :: '-' ::
                rest.takeWhile Char.isDigit) ++ rest.dropWhile Char.isDigit := by
              simp [List.append_assoc]
      · intro c hc
        exact List.mem_takeWhile_imp hc
      · intro c hc
        exact List.mem_takeWhile_imp hc
    next => exact absurd h (by simp)
  next => exact absurd h (by simp)

theorem sjcTail_complete {w ds t : List Char}
    (hw : ∀ c ∈ w, isPySpace c = true) (hne : ds ≠ [])
    (hds : ∀ c ∈ ds, c.isDigit = true) (ht : t = [] ∨ t = ['\n']) :
    Monitor.sjcTail (w ++ ('S' :: 'J' :: 'C' :: '-' :: ds) ++ t)
      = some ('S' :: 'J' :: 'C' :: '-' :: ds) := by
  have htk : t.takeWhile Char.isDigit = [] := by
    rcases ht with rfl | rfl
    · rfl
    · rfl
  have hd1 : (ds ++ t).takeWhile Char.isDigit = ds := (takeWhile_nil_split hds htk).1
  have hd2 : (ds ++ t).dropWhile Char.isDigit = t := (takeWhile_nil_split hds htk).2
  have harr : w ++ ('S' :: 'J' :: 'C' :: '-' :: ds) ++ t
      = w ++ ('S' :: 'J' :: 'C' :: '-' :: (ds ++ t)) := by
    simp [List.append_assoc]
  rw [harr]
  have hsp : ('S' :: 'J' :: 'C' :: '-' :: (ds ++ t)).takeWhile isPySpace = [] := rfl
  have hdw := (takeWhile_nil_split hw hsp).2
  unfold Monitor.sjcTail
  rw [hdw]
  simp only [hd1, hd2]
  rw [if_pos ⟨hne, ht⟩]

theorem tryComma_sound {title : List Char} {i : Nat} {g1 d : List Char}
    (h : Monitor.tryComma title i = some (g1, d)) :
    title.get? i = some ',' ∧ g1 = title.take i ∧
      Monitor.sjcTail (title.drop (i + 1)) = some d := by
  unfold Monitor.tryComma at h
  split at h
  next hget =>
    split at h
    next d' heq =>
      simp only [Option.some.injEq, Prod.mk.injEq] at h
      obtain ⟨h1, h2⟩ := h
      exact ⟨hget, h1.symm, by rw [heq, h2]⟩
    next => exact absurd h (by simp)
  next => exact absurd h (by simp)

theorem scanCommas_sound {title : List Char} :
    ∀ {n : Nat} {r : List Char × List Char}, Monitor.scanCommas title n = some r →
      ∃ i, 1 ≤ i ∧ i ≤ n ∧ Monitor.tryComma title i = some r := by
  intro n
  induction n with
  | zero =>
    intro r h
    exact absurd h (by simp [Monitor.scanCommas])
  | succ n ih =>
    intro r h
    simp only [Monitor.scanCommas] at h
    cases htc : Monitor.tryComma title (n + 1) with
    | some r' =>
      rw [htc] at h
      injection h with h'
      exact ⟨n + 1, Nat.succ_le_succ (Nat.zero_le n), le_refl _, by rw [htc, h']⟩
    | none =>
      rw [htc] at h
      obtain ⟨i, h1, h2, h3⟩ := ih h
      exact ⟨i, h1, Nat.le_succ_of_le h2, h3⟩

theorem scanCommas_complete {title : List Char} {i : Nat} {r : List Char × List Char}
    (hi : Monitor.tryComma title i = some r) (h1 : 1 ≤ i) :
    ∀ n : Nat, i ≤ n → ∃ r', Monitor.scanCommas title n = some r' := by
  intro n
  induction n with
  | zero =>
    intro h
    exact absurd (Nat.le_trans h1 h) (by decide)
  | succ n ih =>
    intro h
    by_cases he : i = n + 1
    · subst he
      exact ⟨r, by simp only [Monitor.scanCommas]; rw [hi]⟩
    · have h' : i ≤ n := Nat.lt_succ_iff.mp (Nat.lt_of_le_of_ne h he)
      obtain ⟨r', hr'⟩ := ih h'
      cases htc : Monitor.tryComma title (n + 1) with
      | some r'' => exact ⟨r'', by simp only [Monitor.scanCommas]; rw [htc]⟩
      | none => exact ⟨r', by simp only [Monitor.scanCommas]; rw [htc, hr']⟩

theorem reMatch_sound {title g1 d : List Char}
    (h : Monitor.reMatch title = some (g1, d)) : MatchSplit title g1 d := by
  unfold Monitor.reMatch at h
  obtain ⟨i, h1, h2, h3⟩ := scanCommas_sound h
  obtain ⟨hget, hg1, htail⟩ := tryComma_sound h3
  obtain ⟨w, ds, t, heq, hw, hne, hds, ht, hd⟩ := sjcTail_sound htail
  rw [List.get?_eq_getElem?] at hget
  obtain ⟨hlen, hcomma⟩ := List.getElem?_eq_some.mp hget
  have hnl : i ≤ (title.takeWhile (fun c => c ≠ '\n')).length :=
    Nat.le_trans h2 (Nat.sub_le _ _)
  refine ⟨w, ds, t, ?_, ?_, ?_, hw, hne, hds, ht, hd⟩
  · calc title = title.take i ++ title.drop i := (List.take_append_drop i title).symm
      _ = title.take i ++ (title[i] :: title.drop (i + 1)) := by
          rw [List.getElem_cons_drop]
      _ = title.take i ++ (',' :: (w ++ ('S' :: 'J' :: 'C' :: '-' :: ds) ++ t)) := by
          rw [hcomma, heq]
      _ = g1 ++ [','] ++ w ++ ('S' :: 'J' :: 'C' :: '-' :: ds) ++ t := by
          rw [hg1]; simp [List.append_assoc]
  · rw [hg1]
    intro hnil
    have := congrArg List.length hnil
    simp [List.length_take, Nat.min_eq_left (Nat.le_of_lt hlen)] at this
    omega
  · intro c hc
    rw [hg1] at hc
    have hpre : title.take i = (title.takeWhile (fun c => c ≠ '\n')).take i := by
      conv_lhs => rw [← List.takeWhile_append_dropWhile (fun c => decide (c ≠ '\n')) title]
      rw [List.take_append_of_le_length hnl]
    rw [hpre] at hc
    have hmem : c ∈ title.takeWhile (fun c => decide (c ≠ '\n')) :=
      List.mem_of_mem_take hc
    have hq := List.mem_takeWhile_imp hmem
    exact of_decide_eq_true hq

theorem reMatch_complete {title g1 d : List Char} (h : MatchSplit title g1 d) :
    ∃ r, Monitor.reMatch title = some r := by
  obtain ⟨w, ds, t, heq, hg1ne, hg1nl, hw, hne, hds, ht, hd⟩ := h
  have heq2 : title = (g1 ++ [',']) ++ (w ++ ('S' :: 'J' :: 'C' :: '-' :: ds) ++ t) := by
    rw [heq]; simp [List.append_assoc]
  have heq3 : title = g1 ++ (',' :: (w ++ ('S' :: 'J' :: 'C' :: '-' :: ds) ++ t)) := by
    rw [heq]; simp [List.append_assoc]
  have hget : title.get? g1.length = some ',' := by
    rw [List.get?_eq_getElem?, heq3, List.getElem?_append_right (le_refl _)]
    simp
  have hdrop : title.drop (g1.length + 1) = w ++ ('S' :: 'J' :: 'C' :: '-' :: ds) ++ t := by
    rw [heq2]
    have hlc : (g1 ++ [',']).length = g1.length + 1 := by simp
    rw [← hlc, List.drop_left]
  have htc : Monitor.tryComma title g1.length
      = some (title.take g1.length, 'S' :: 'J' :: 'C' :: '-' :: ds) := by
    unfold Monitor.tryComma
    rw [if_pos hget, hdrop, sjcTail_complete hw hne hds ht]
  have hpos : 1 ≤ g1.length := List.length_pos.mpr hg1ne
  have hall : ∀ c ∈ g1 ++ [','], (fun c => decide (c ≠ '\n')) c = true := by
    intro c hc
    rcases List.mem_append.mp hc with hc' | hc'
    · exact decide_eq_true (hg1nl c hc')
    · simp at hc'
      subst hc'
      decide
  have hnl : g1.length + 1 ≤ (title.takeWhile (fun c => c ≠ '\n')).length := by
    rw [heq2, takeWhile_append_all hall]
    simp
  have hb : g1.length ≤ (title.takeWhile (fun c => c ≠ '\n')).length - 1 := by omega
  obtain ⟨r', hr'⟩ := scanCommas_complete htc hpos _ hb
  exact ⟨r', by unfold Monitor.reMatch; exact hr'⟩

/-- C6 (amended): the title parser extracts (case_name, docket) by matching a
trailing ", <whitespace>* SJC-<digits>" pattern anchored at the end of the
string or just before one final newline (the semantics of the regex anchor $).
Soundness: on a match, case_name is the text left of the matched comma with
surrounding whitespace stripped and docket is the matched "SJC-<digits>".
Completeness: every title admitting such a decomposition is parsed with a
non-null docket.  When no such decomposition exists, case_name is the full
title and docket is null.  The two examples of the specification evaluate as
stated. -/
theorem parse_case_info_characterised (title : String) :
    (∀ (name dk : String), Monitor.parse_case_info title = (name, some dk) →
      ∃ g1 dl, MatchSplit title.data g1 dl ∧
        name = pyStrip (String.mk g1) ∧ dk = String.mk dl) ∧
    (∀ g1 dl, MatchSplit title.data g1 dl →
      ∃ (name dk : String), Monitor.parse_case_info title = (name, some dk)) ∧
    ((¬ ∃ g1 dl, MatchSplit title.data g1 dl) →
      Monitor.parse_case_info title = (title, none)) ∧
    Monitor.parse_case_info "Commonwealth v. X, SJC-13444"
      = ("Commonwealth v. X", some "SJC-13444") ∧
    Monitor.parse_case_info "Annual State of the Judiciary"
      = ("Annual State of the Judiciary", none) := by
  refine ⟨?_, ?_, ?_, by decide, by decide⟩
  · intro name dk h
    unfold Monitor.parse_case_info at h
    cases hm : Monitor.reMatch title.data with
    | some r =>
      obtain ⟨g1, dl⟩ := r
      rw [hm] at h
      simp only [Prod.mk.injEq, Option.some.injEq] at h
      exact ⟨g1, dl, reMatch_sound hm, h.1.symm, h.2.symm⟩
    | none =>
      rw [hm] at h
      simp at h
  · intro g1 dl hms
    obtain ⟨r, hr⟩ := reMatch_complete hms
    obtain ⟨g1', dl'⟩ := r
    refine ⟨pyStrip (String.mk g1'), String.mk dl', ?_⟩
    unfold Monitor.parse_case_info
    rw [hr]
  · intro hno
    unfold Monitor.parse_case_info
    cases hm : Monitor.reMatch title.data with
    | some r =>
      obtain ⟨g1, dl⟩ := r
      exact absurd ⟨g1, dl, reMatch_sound hm⟩ hno
    | none => rfl

/-- C6 counterexample: on a title with one trailing newline the code still
extracts the docket, because the regex anchor $ of the Python pattern matches
just before a final newline; under the claim the pattern is absent (the string
does not end with the docket digits), so the claimed result would be the full
title with a null docket. -/
theorem parse_case_info_trailing_newline :
    Monitor.parse_case_info "Commonwealth v. X, SJC-13444\n"
      = ("Commonwealth v. X", some "SJC-13444") ∧
    "Commonwealth v. X, SJC-13444\n".data.getLast? = some '\n' ∧
    Monitor.parse_case_info "Commonwealth v. X, SJC-13444\n"
      ≠ ("Commonwealth v. X, SJC-13444\n", none) := by
  refine ⟨by decide, by decide, by decide⟩

/-! Processing-stage lemmas for claims C2, C3, C8. -/

theorem process_video_fail {env : PV.Env} {fs : List String} {v : VideoInfo}
    (h1 : ¬ v.id ∈ fs) (h2 : env.fetchOk v.id = false) :
    PV.process_video env fs v = (none, fs) := by
  unfold PV.process_video PV.download_audio
  simp [h1, h2]

theorem process_video_succ {env : PV.Env} {fs : List String} {v : VideoInfo}
    (h : v.id ∈ fs ∨ env.fetchOk v.id = true) :
    PV.process_video env fs v = (some
      { video_id := v.id, title := v.title, description := v.description,
        published_at := v.published_at, audio_url := env.uploadUrl v.id,
        file_size := env.fileSize v.id, processed_at := env.now },
      if (env.uploadUrl v.id).isSome
      then (if v.id ∈ fs then fs else v.id :: fs).erase v.id
      else (if v.id ∈ fs then fs else v.id :: fs)) := by
  unfold PV.process_video PV.download_audio
  by_cases hm : v.id ∈ fs
  · simp [hm]
  · rcases h with h' | h'
    · exact absurd h' hm
    · simp [hm, h']

theorem process_video_none_inv {env : PV.Env} {fs : List String} {v : VideoInfo}
    (h : (PV.process_video env fs v).1 = none) :
    PV.process_video env fs v = (none, fs) ∧
      ¬ v.id ∈ fs ∧ env.fetchOk v.id = false := by
  by_cases hs : v.id ∈ fs ∨ env.fetchOk v.id = true
  · rw [process_video_succ hs] at h
    exact absurd h (by simp)
  · push_neg at hs
    obtain ⟨h1, h2⟩ := hs
    exact ⟨process_video_fail h1 (Bool.not_eq_true _ |>.mp h2), h1,
      Bool.not_eq_true _ |>.mp h2⟩

theorem process_video_some_id {env : PV.Env} {fs : List String} {v : VideoInfo}
    {ep : Episode} {fs' : List String}
    (h : PV.process_video env fs v = (some ep, fs')) : ep.video_id = v.id := by
  by_cases hs : v.id ∈ fs ∨ env.fetchOk v.id = true
  · rw [process_video_succ hs] at h
    have he := congrArg Prod.fst h
    simp only at he
    rw [← Option.some.inj he]
  · push_neg at hs
    rw [process_video_fail hs.1 (Bool.not_eq_true _ |>.mp hs.2)] at h
    exact absurd (congrArg Prod.fst h) (by simp)

theorem process_video_fs_sub {env : PV.Env} {fs : List String} {v : VideoInfo} :
    ∀ x ∈ (PV.process_video env fs v).2, x ∈ fs ∨ x = v.id := by
  intro x hx
  by_cases hs : v.id ∈ fs ∨ env.fetchOk v.id = true
  · rw [process_video_succ hs] at hx
    simp only at hx
    have hx' : x ∈ if v.id ∈ fs then fs else v.id :: fs := by
      cases hu : (env.uploadUrl v.id).isSome with
      | true =>
        rw [hu] at hx
        simp only [if_true] at hx
        exact List.mem_of_mem_erase hx
      | false =>
        rw [hu] at hx
        simpa using hx
    by_cases hm : v.id ∈ fs
    · rw [if_pos hm] at hx'
      exact Or.inl hx'
    · rw [if_neg hm] at hx'
      rcases List.mem_cons.mp hx' with h | h
      · exact Or.inr h
      · exact Or.inl h
  · push_neg at hs
    rw [process_video_fail hs.1 (Bool.not_eq_true _ |>.mp hs.2)] at hx
    exact Or.inl hx

theorem runVideos_cons_skip {env : PV.Env} {E : List String} {v : VideoInfo}
    {vs : List VideoInfo} {eps : List Episode} {fs : List String}
    (h : v.id ∈ E) :
    PV.runVideos env E (v :: vs) eps fs = PV.runVideos env E vs eps fs := by
  simp [PV.runVideos, h]

theorem runVideos_cons_some {env : PV.Env} {E : List String} {v : VideoInfo}
    {vs : List VideoInfo} {eps : List Episode} {fs fs' : List String} {ep : Episode}
    (h : ¬ v.id ∈ E) (hp : PV.process_video env fs v = (some ep, fs')) :
    PV.runVideos env E (v :: vs) eps fs = PV.runVideos env E vs (eps ++ [ep]) fs' := by
  simp [PV.runVideos, h, hp]

theorem runVideos_cons_none {env : PV.Env} {E : List String} {v : VideoInfo}
    {vs : List VideoInfo} {eps : List Episode} {fs fs' : List String}
    (h : ¬ v.id ∈ E) (hp : PV.process_video env fs v = (none, fs')) :
    PV.runVideos env E (v :: vs) eps fs = PV.runVideos env E vs eps fs' := by
  simp [PV.runVideos, h, hp]

theorem runVideos_acc_prefix (env : PV.Env) (E : List String) :
    ∀ (vs : List VideoInfo) (eps : List Episode) (fs : List String),
      ∃ Δ : List Episode, (PV.runVideos env E vs eps fs).1 = eps ++ Δ := by
  intro vs
  induction vs with
  | nil =>
    intro eps fs
    exact ⟨[], by simp [PV.runVideos]⟩
  | cons v vs ih =>
    intro eps fs
    by_cases hc : v.id ∈ E
    · rw [runVideos_cons_skip hc]
      exact ih eps fs
    · rcases hp : PV.process_video env fs v with ⟨o, fs'⟩
      cases o with
      | some ep =>
        rw [runVideos_cons_some hc hp]
        obtain ⟨Δ, hΔ⟩ := ih (eps ++ [ep]) fs'
        exact ⟨ep :: Δ, by rw [hΔ]; simp⟩
      | none =>
        rw [runVideos_cons_none hc hp]
        exact ih eps fs'

theorem runVideos_fs_sub (env : PV.Env) (E : List String) :
    ∀ (vs : List VideoInfo) (eps : List Episode) (fs : List String) (x : String),
      x ∈ (PV.runVideos env E vs eps fs).2 →
      x ∈ fs ∨ x ∈ (PV.runVideos env E vs eps fs).1.map (·.video_id) := by
  intro vs
  induction vs with
  | nil =>
    intro eps fs x hx
    simp only [PV.runVideos] at hx
    exact Or.inl hx
  | cons v vs ih =>
    intro eps fs x hx
    by_cases hc : v.id ∈ E
    · rw [runVideos_cons_skip hc] at hx ⊢
      exact ih eps fs x hx
    · rcases hp : PV.process_video env fs v with ⟨o, fs'⟩
      cases o with
      | some ep =>
        rw [runVideos_cons_some hc hp] at hx ⊢
        rcases ih (eps ++ [ep]) fs' x hx with h | h
        · have hsub : x ∈ fs ∨ x = v.id := by
            have hall := @process_video_fs_sub env fs v x
            rw [hp] at hall
            exact hall h
          rcases hsub with h' | h'
          · exact Or.inl h'
          · subst h'
            obtain ⟨Δ, hΔ⟩ := runVideos_acc_prefix env E vs (eps ++ [ep]) fs'
            refine Or.inr ?_
            rw [hΔ, List.map_append, List.map_append]
            refine List.mem_append.mpr (Or.inl ?_)
            refine List.mem_append.mpr (Or.inr ?_)
            simp [process_video_some_id hp]
        · exact Or.inr h
      | none =>
        obtain ⟨hpf, -, -⟩ := process_video_none_inv (by rw [hp])
        rw [hp] at hpf
        have hfs : fs' = fs := congrArg Prod.snd hpf
        rw [hfs] at hp
        rw [runVideos_cons_none hc hp] at hx ⊢
        exact ih eps fs x hx

theorem runVideos_unprocessed (env : PV.Env) (E : List String) :
    ∀ (vs : List VideoInfo) (eps : List Episode) (fs : List String),
      (∀ x ∈ E, x ∈ eps.map (·.video_id)) →
      ∀ v ∈ vs, ¬ v.id ∈ (PV.runVideos env E vs eps fs).1.map (·.video_id) →
        env.fetchOk v.id = false ∧ ¬ v.id ∈ (PV.runVideos env E vs eps fs).2 := by
  intro vs
  induction vs with
  | nil =>
    intro eps fs _ v hv
    exact absurd hv (List.not_mem_nil v)
  | cons w vs ih =>
    intro eps fs hE v hv hnot
    by_cases hc : w.id ∈ E
    · rw [runVideos_cons_skip hc] at hnot ⊢
      rcases List.mem_cons.mp hv with rfl | hv'
      · obtain ⟨Δ, hΔ⟩ := runVideos_acc_prefix env E vs eps fs
        refine absurd ?_ hnot
        rw [hΔ, List.map_append]
        exact List.mem_append.mpr (Or.inl (hE _ hc))
      · exact ih eps fs hE v hv' hnot
    · rcases hp : PV.process_video env fs w with ⟨o, fs'⟩
      cases o with
      | some ep =>
        rw [runVideos_cons_some hc hp] at hnot ⊢
        rcases List.mem_cons.mp hv with rfl | hv'
        · obtain ⟨Δ, hΔ⟩ := runVideos_acc_prefix env E vs (eps ++ [ep]) fs'
          refine absurd ?_ hnot
          rw [hΔ, List.map_append, List.map_append]
          refine List.mem_append.mpr (Or.inl (List.mem_append.mpr (Or.inr ?_)))
          simp [process_video_some_id hp]
        · refine ih (eps ++ [ep]) fs' ?_ v hv' hnot
          intro x hx
          rw [List.map_append]
          exact List.mem_append.mpr (Or.inl (hE x hx))
      | none =>
        obtain ⟨hpf, hnin, hfk⟩ := process_video_none_inv (by rw [hp])
        rw [hp] at hpf
        have hfs : fs' = fs := congrArg Prod.snd hpf
        rw [hfs] at hp
        rw [runVideos_cons_none hc hp] at hnot ⊢
        rcases List.mem_cons.mp hv with rfl | hv'
        · refine ⟨hfk, fun hmem => ?_⟩
          rcases runVideos_fs_sub env E vs eps fs v.id hmem with h | h
          · exact hnin h
          · exact hnot h
        · exact ih eps fs hE v hv' hnot

theorem runVideos_noop (env : PV.Env) (E : List String) :
    ∀ (vs : List VideoInfo) (eps : List Episode) (fs : List String),
      (∀ v ∈ vs, v.id ∈ E ∨ (¬ v.id ∈ fs ∧ env.fetchOk v.id = false)) →
      PV.runVideos env E vs eps fs = (eps, fs) := by
  intro vs
  induction vs with
  | nil =>
    intro eps fs _
    rfl
  | cons w vs ih =>
    intro eps fs h
    by_cases hE : w.id ∈ E
    · rw [runVideos_cons_skip hE]
      exact ih eps fs (fun v hv => h v (List.mem_cons_of_mem _ hv))
    · rcases h w (List.mem_cons_self _ _) with hc | ⟨hnin, hfk⟩
      · exact absurd hc hE
      · rw [runVideos_cons_none hE (process_video_fail hnin hfk)]
        exact ih eps fs (fun v hv => h v (List.mem_cons_of_mem _ hv))

/-- C2: under the same external behaviour, running the processing stage a
second time on the catalog and audio directory produced by a first run, with
the same input list, returns them unchanged; and any input record whose id is
in the snapshot of existing catalog ids is skipped entirely — the loop step for
it is the identity on the catalog and the directory, performing no fetch. -/
theorem processing_idempotent (env : PV.Env) (eps : List Episode)
    (fs : List String) (vids : List VideoInfo) :
    PV.processMain env (PV.processMain env eps fs vids).1
        (PV.processMain env eps fs vids).2 vids
      = PV.processMain env eps fs vids ∧
    ∀ (v : VideoInfo) (vs : List VideoInfo) (eps' : List Episode) (fs' : List String),
      v.id ∈ eps.map (·.video_id) →
      PV.runVideos env (eps.map (·.video_id)) (v :: vs) eps' fs'
        = PV.runVideos env (eps.map (·.video_id)) vs eps' fs' := by
  constructor
  · unfold PV.processMain
    have hnoop := runVideos_noop env
      ((PV.runVideos env (eps.map (·.video_id)) vids eps fs).1.map (·.video_id)) vids
      (PV.runVideos env (eps.map (·.video_id)) vids eps fs).1
      (PV.runVideos env (eps.map (·.video_id)) vids eps fs).2
    rw [hnoop]
    · intro v hv
      by_cases hc : v.id ∈ (PV.runVideos env (eps.map (·.video_id)) vids eps fs).1.map
          (·.video_id)
      · exact Or.inl hc
      · obtain ⟨hf, hfs⟩ := runVideos_unprocessed env (eps.map (·.video_id)) vids eps fs
          (fun x hx => hx) v hv hc
        exact Or.inr ⟨hfs, hf⟩
  · intro v vs eps' fs' hc
    exact runVideos_cons_skip hc

/-- Witness for C2: with every fetch succeeding, reprocessing the singleton
input list on the catalog that the first run produced leaves it unchanged, and
the record whose id "a" is already in the catalog [epA] is skipped. -/
theorem processing_idempotent_witness :
    PV.processMain envFetchOnly (PV.processMain envFetchOnly [] [] [vidA]).1
        (PV.processMain envFetchOnly [] [] [vidA]).2 [vidA]
      = PV.processMain envFetchOnly [] [] [vidA] ∧
    PV.runVideos envFetchOnly ([epA].map (·.video_id)) [vidA] [] []
      = PV.runVideos envFetchOnly ([epA].map (·.video_id)) [] [] [] :=
  ⟨(processing_idempotent envFetchOnly [] [] [vidA]).1,
   (processing_idempotent envFetchOnly [epA] [] [vidA]).2 vidA [] [] [] (by decide)⟩

theorem runVideos_nodup (env : PV.Env) (E : List String) :
    ∀ (vs : List VideoInfo) (eps : List Episode) (fs : List String),
      (eps.map (·.video_id)).Nodup → (vs.map (·.id)).Nodup →
      (∀ w ∈ vs, w.id ∈ eps.map (·.video_id) → w.id ∈ E) →
      ((PV.runVideos env E vs eps fs).1.map (·.video_id)).Nodup := by
  intro vs
  induction vs with
  | nil =>
    intro eps fs h1 _ _
    simpa [PV.runVideos] using h1
  | cons w vs ih =>
    intro eps fs h1 h2 hE
    have h2' : (vs.map (·.id)).Nodup := (List.nodup_cons.mp (by simpa using h2)).2
    have hwnin : ¬ w.id ∈ vs.map (·.id) := (List.nodup_cons.mp (by simpa using h2)).1
    by_cases hc : w.id ∈ E
    · rw [runVideos_cons_skip hc]
      exact ih eps fs h1 h2' (fun x hx => hE x (List.mem_cons_of_mem _ hx))
    · rcases hp : PV.process_video env fs w with ⟨o, fs'⟩
      cases o with
      | some ep =>
        rw [runVideos_cons_some hc hp]
        have hepid : ep.video_id = w.id := process_video_some_id hp
        have hnotin : ¬ w.id ∈ eps.map (·.video_id) := by
          intro hmem
          exact hc (hE w (List.mem_cons_self _ _) hmem)
        refine ih (eps ++ [ep]) fs' ?_ h2' ?_
        · rw [List.map_append]
          refine List.Nodup.append h1 (by simp) ?_
          intro x hx hx'
          simp only [List.map_cons, List.map_nil, List.mem_singleton, hepid] at hx'
          rw [hx'] at hx
          exact hnotin hx
        · intro x hx hmem
          rw [List.map_append] at hmem
          rcases List.mem_append.mp hmem with h | h
          · exact hE x (List.mem_cons_of_mem _ hx) h
          · simp only [List.map_cons, List.map_nil, List.mem_singleton, hepid] at h
            exact absurd (h ▸ List.mem_map.mpr ⟨x, hx, rfl⟩) hwnin
      | none =>
        obtain ⟨hpf, -, -⟩ := process_video_none_inv (by rw [hp])
        rw [hp] at hpf
        have hfs : fs' = fs := congrArg Prod.snd hpf
        rw [hfs] at hp
        rw [runVideos_cons_none hc hp]
        exact ih eps fs h1 h2' (fun x hx => hE x (List.mem_cons_of_mem _ hx))

/-- C8 counterexample: the snapshot of existing ids is taken once, before the
loop, so an input list that repeats a new id appends one episode per
occurrence: with an empty starting catalog and the input [vidA, vidA] the
resulting catalog carries the video_id "a" twice. -/
theorem duplicate_input_duplicates_catalog :
    (PV.processMain envFetchOnly [] [] [vidA, vidA]).1.map (·.video_id) = ["a", "a"] ∧
    ¬ ((PV.processMain envFetchOnly [] [] [vidA, vidA]).1.map (·.video_id)).Nodup := by
  refine ⟨by decide, by decide⟩

/-- C8 (amended): after a processing run whose starting catalog has unique
video ids and whose input list carries pairwise-distinct ids, the catalog still
has at most one episode per video_id; an episode is appended at most once per
input id and ids already in the catalog are skipped. -/
theorem catalog_ids_unique (env : PV.Env) (eps : List Episode) (fs : List String)
    (vids : List VideoInfo) (h1 : (eps.map (·.video_id)).Nodup)
    (h2 : (vids.map (·.id)).Nodup) :
    ((PV.processMain env eps fs vids).1.map (·.video_id)).Nodup := by
  unfold PV.processMain
  exact runVideos_nodup env (eps.map (·.video_id)) vids eps fs h1 h2 (fun _ _ hw => hw)

/-- Witness for the amended C8 at a concrete run. -/
theorem catalog_ids_unique_witness :
    ((PV.processMain envFetchOnly [epA] [] [vidA]).1.map (·.video_id)).Nodup :=
  catalog_ids_unique envFetchOnly [epA] [] [vidA] (by decide) (by decide)

/-- C3: per-record failure isolation.  If the fetch step fails (no local
artifact and the fetch tool fails) the record produces no episode, the audio
directory is unchanged, and the loop step for it is the identity on the
catalog.  If the fetch succeeds and the upload step returns no URL, the record
produces an episode with audio_url = none and the local artifact is retained.
The artifact is deleted exactly when the upload returned a URL: with a
duplicate-free directory, after an upload that returned a URL the artifact for
the record's id is gone. -/
theorem process_video_partial_failure (env : PV.Env) (fs : List String)
    (v : VideoInfo) :
    (¬ v.id ∈ fs → env.fetchOk v.id = false →
      PV.process_video env fs v = (none, fs) ∧
      ∀ (E : List String) (vs : List VideoInfo) (eps : List Episode),
        PV.runVideos env E (v :: vs) eps fs = PV.runVideos env E vs eps fs) ∧
    (v.id ∈ fs ∨ env.fetchOk v.id = true → env.uploadUrl v.id = none →
      (PV.process_video env fs v).1 = some
        { video_id := v.id, title := v.title, description := v.description,
          published_at := v.published_at, audio_url := none,
          file_size := env.fileSize v.id, processed_at := env.now } ∧
      v.id ∈ (PV.process_video env fs v).2) ∧
    (fs.Nodup → ∀ u : String, env.uploadUrl v.id = some u →
      ¬ v.id ∈ (PV.process_video env fs v).2) := by
  refine ⟨?_, ?_, ?_⟩
  · intro h1 h2
    have hpf := process_video_fail h1 h2
    refine ⟨hpf, ?_⟩
    intro E vs eps
    by_cases hE : v.id ∈ E
    · exact runVideos_cons_skip hE
    · exact runVideos_cons_none hE hpf
  · intro hs hu
    rw [process_video_succ hs, hu]
    constructor
    · rfl
    · simp only [Option.isSome_none, Bool.false_eq_true, if_false]
      by_cases hm : v.id ∈ fs
      · rw [if_pos hm]
        exact hm
      · rw [if_neg hm]
        exact List.mem_cons_self _ _
  · intro hnd u hu
    by_cases hs : v.id ∈ fs ∨ env.fetchOk v.id = true
    · rw [process_video_succ hs, hu]
      simp only [Option.isSome_some, if_true]
      by_cases hm : v.id ∈ fs
      · rw [if_pos hm]
        intro hmem
        exact (hnd.mem_erase_iff.mp hmem).1 rfl
      · rw [if_neg hm, List.erase_cons_head]
        exact hm
    · push_neg at hs
      rw [process_video_fail hs.1 (Bool.not_eq_true _ |>.mp hs.2)]
      exact hs.1

/-- Witness for C3 on concrete runs: a failing fetch yields no episode and an
unchanged directory; a skipped upload yields an episode with a null URL; a
successful upload deletes the artifact. -/
theorem process_video_partial_failure_witness :
    PV.process_video envFetchFail [] vidA = (none, []) ∧
    (PV.process_video envFetchOnly [] vidA).1 = some
      { video_id := "a", title := "A v. B, SJC-1", description := "",
        published_at := "2024-01-01", audio_url := none, file_size := 0,
        processed_at := "t" } ∧
    ¬ "a" ∈ (PV.process_video envUpload ["a"] vidA).2 := by
  refine ⟨((process_video_partial_failure envFetchFail [] vidA).1 (by decide) rfl).1,
    ?_, ?_⟩
  · exact ((process_video_partial_failure envFetchOnly [] vidA).2.1 (Or.inr rfl) rfl).1
  · exact (process_video_partial_failure envUpload ["a"] vidA).2.2 (by decide) "u" rfl

/-! Discovery-stage main dispatch: claims C4 and C7. -/

/-- C7 counterexample: an init run replaces seen_ids with the current response
ids, so with a previously seen id "old" and an empty response the persisted
seen_ids is empty — the id "old" was removed, falsifying append-only. -/
theorem init_replaces_seen_ids :
    (Monitor.monitorMain { init := true, list := none, json := false, all := false }
        { seen_ids := ["old"], last_check := none } [] "t").1
      = some { seen_ids := [], last_check := some "t" } ∧
    "old" ∈ ({ seen_ids := ["old"], last_check := none } : MonitorState).seen_ids ∧
    ¬ "old" ∈ ([] : List String) := by
  refine ⟨rfl, by decide, by decide⟩

/-- C7 (amended): an interactive check run appends exactly the ids of the new
items to seen_ids (so no previously seen id is removed), and when the prior
seen_ids and the response ids are duplicate-free the result is duplicate-free;
an init run replaces seen_ids with the response's ids; an interactive all run
appends every response id, seen or not. -/
theorem seen_ids_evolution (s : MonitorState) (r : List VideoInfo) (now : String) :
    ((Monitor.monitorMain { init := false, list := none, json := false, all := false }
        s r now).1 = some
      { seen_ids := s.seen_ids ++ (Monitor.check_for_new_videos s r).map (·.id),
        last_check := some now }) ∧
    (∀ x ∈ s.seen_ids,
      x ∈ s.seen_ids ++ (Monitor.check_for_new_videos s r).map (·.id)) ∧
    (s.seen_ids.Nodup → (r.map (·.id)).Nodup →
      (s.seen_ids ++ (Monitor.check_for_new_videos s r).map (·.id)).Nodup) ∧
    ((Monitor.monitorMain { init := true, list := none, json := false, all := false }
        s r now).1 = some { seen_ids := r.map (·.id), last_check := some now }) ∧
    ((Monitor.monitorMain { init := false, list := none, json := false, all := true }
        s r now).1
      = some { seen_ids := s.seen_ids ++ r.map (·.id), last_check := some now }) := by
  refine ⟨?_, ?_, ?_, rfl, ?_⟩
  · unfold Monitor.monitorMain
    cases he : (Monitor.check_for_new_videos s r).isEmpty with
    | true => simp [Monitor.listSelected, he, List.isEmpty_iff.mp he]
    | false => simp [Monitor.listSelected, he]
  · intro x hx
    exact List.mem_append_left _ hx
  · intro hn1 hn2
    rw [List.nodup_append]
    refine ⟨hn1, ?_, ?_⟩
    · exact List.Sublist.nodup (List.Sublist.map _ (List.filter_sublist r)) hn2
    · intro x hx hx'
      obtain ⟨v, hv, hvx⟩ := List.mem_map.mp hx'
      have hb := (List.mem_filter.mp hv).2
      rw [Bool.not_eq_true'] at hb
      exact absurd (hvx ▸ hx) (contains_false_iff.mp hb)
  · unfold Monitor.monitorMain
    cases he : (r : List VideoInfo).isEmpty with
    | true => simp [Monitor.listSelected, he, List.isEmpty_iff.mp he]
    | false => simp [Monitor.listSelected, he]

/-- Witness for the amended C7 at concrete inputs. -/
theorem seen_ids_evolution_witness :
    (["x"] ++ (Monitor.check_for_new_videos
        { seen_ids := ["x"], last_check := none } [vidA]).map (·.id)).Nodup :=
  (seen_ids_evolution { seen_ids := ["x"], last_check := none } [vidA] "t").2.2.1
    (by decide) (by decide)

/-- C4 counterexample: a machine-output (--json) init run still writes the
state file, because the init branch of main saves state and returns before the
json check of the normal path is ever reached. -/
theorem json_init_persists_state :
    (Monitor.monitorMain { init := true, list := none, json := true, all := false }
        { seen_ids := [], last_check := none } [] "t").1
      = some { seen_ids := [], last_check := some "t" } ∧
    ({ init := true, list := none, json := true, all := false } : Monitor.Args).json
      = true :=
  ⟨rfl, rfl⟩

/-- C4 (amended): for a run that is not a list run, a machine-output check or
backfill run (init flag off, json flag on) never writes the state file and
exits with status 1 when it finds zero new items; an init run writes the state
file regardless of the machine flag; and the state file is written iff the run
is an init run or a non-machine run. -/
theorem machine_output_state_policy (a : Monitor.Args) (s : MonitorState)
    (r : List VideoInfo) (now : String) (hl : Monitor.listSelected a = false) :
    (a.init = false → a.json = true →
      (Monitor.monitorMain a s r now).1 = none ∧
      ((if a.all then r else Monitor.check_for_new_videos s r) = [] →
        (Monitor.monitorMain a s r now).2 = 1)) ∧
    (a.init = true →
      (Monitor.monitorMain a s r now).1 = some (Monitor.initRun s r now)) ∧
    ((Monitor.monitorMain a s r now).1 ≠ none ↔ (a.init = true ∨ a.json = false)) := by
  refine ⟨?_, ?_, ?_⟩
  · intro hi hj
    constructor
    · simp [Monitor.monitorMain, hl, hi, hj]
    · intro hz
      simp [Monitor.monitorMain, hl, hi, hj, hz]
  · intro hi
    simp [Monitor.monitorMain, hl, hi]
  · constructor
    · intro hne
      by_cases hi : a.init = true
      · exact Or.inl hi
      · by_cases hj : a.json = true
        · refine absurd ?_ hne
          simp [Monitor.monitorMain, hl, Bool.not_eq_true _ |>.mp hi, hj]
        · exact Or.inr (Bool.not_eq_true _ |>.mp hj)
    · intro h
      rcases h with hi | hj
      · simp [Monitor.monitorMain, hl, hi]
      · by_cases hi : a.init = true
        · simp [Monitor.monitorMain, hl, hi]
        · simp [Monitor.monitorMain, hl, Bool.not_eq_true _ |>.mp hi, hj]

/-- Witness for the amended C4: a machine-output check run over an empty
response writes nothing and exits 1. -/
theorem machine_output_state_policy_witness :
    (Monitor.monitorMain { init := false, list := none, json := true, all := false }
        { seen_ids := [], last_check := none } [] "t").1 = none ∧
    (Monitor.monitorMain { init := false, list := none, json := true, all := false }
        { seen_ids := [], last_check := none } [] "t").2 = 1 := by
  have h := machine_output_state_policy
    { init := false, list := none, json := true, all := false }
    { seen_ids := [], last_check := none } [] "t" rfl
  exact ⟨(h.1 rfl rfl).1, (h.1 rfl rfl).2 (by decide)⟩

/-- Witness for the amended C6: on the concrete title "A, SJC-7" the parser
returns a docket and the promised decomposition exists (soundness), and the
concrete decomposition of "B, SJC-9" forces the parser to return a docket
(completeness). -/
theorem parse_case_info_characterised_witness :
    (∃ g1 dl, MatchSplit "A, SJC-7".data g1 dl ∧
      "A" = pyStrip (String.mk g1) ∧ "SJC-7" = String.mk dl) ∧
    (∃ (name dk : String), Monitor.parse_case_info "B, SJC-9" = (name, some dk)) := by
  constructor
  · exact (parse_case_info_characterised "A, SJC-7").1 "A" "SJC-7" (by decide)
  · exact (parse_case_info_characterised "B, SJC-9").2.1 ['B'] "SJC-9".data
      ⟨[' '], ['9'], [], by decide, by decide, by decide, by decide, by decide,
        by decide, by decide, by decide⟩
